import Mathlib

/-
  Embedding of the MCTS-GSM8k demo repository:
  src/node.py (LLMNode, QuestionNode and the persona subclasses) and
  src/model_calls.py (ModelCalls token accounting and the get_output
  retry loop). Strings are modelled as Lean strings; the regular
  expression in is_terminal and reward is modelled by an explicit
  leftmost-match search over the character list, restricted to the
  ASCII meanings of the classes \s and \d.
-/

/-- ASCII lowercase conversion, modelling the effect of re.IGNORECASE on the
ASCII-only pattern text. -/
def lowerCh (c : Char) : Char :=
  if 'A' ≤ c ∧ c ≤ 'Z' then Char.ofNat (c.toNat + 32) else c

/-- Case-insensitive character comparison used when matching the literal part
of the pattern. -/
def ciEq (a b : Char) : Bool := lowerCh a == lowerCh b

/-- The regex class \s (whitespace), restricted to ASCII. -/
def isSpaceCh (c : Char) : Bool :=
  c == ' ' || c == '\t' || c == '\n' || c == '\r' || c == '\x0b' || c == '\x0c'

/-- The regex class \d (decimal digit), restricted to ASCII. -/
def isDigitCh (c : Char) : Bool := decide ('0' ≤ c ∧ c ≤ '9')

/-- Match a literal pattern case-insensitively at the head of the input,
returning the remaining input on success. -/
def matchLit : List Char → List Char → Option (List Char)
  | [], s => some s
  | _ :: _, [] => none
  | p :: ps, c :: cs => if ciEq p c then matchLit ps cs else none

/-- Group 1 of the pattern: an optional minus sign, the integer digits,
and the optional fractional digits captured by the inner group. -/
structure Numeral where
  neg : Bool
  intDigits : List Char
  fracDigits : Option (List Char)
  deriving DecidableEq

/-- Greedy parse of the optional fraction group (\.\d+)? after the integer
digits: the group matches when a dot is followed by at least one digit, and
captures the maximal digit run. -/
def parseFracTail : List Char → Option (List Char)
  | '.' :: t =>
    if (t.takeWhile isDigitCh).isEmpty then none
    else some (t.takeWhile isDigitCh)
  | _ => none

/-- Greedy parse of the regex fragment \d+(\.\d+)? at the head of the input:
one or more digits, then the optional fraction group. -/
def parseDigitsFrac (r : List Char) : Option (List Char × Option (List Char)) :=
  if (r.takeWhile isDigitCh).isEmpty then none
  else some (r.takeWhile isDigitCh, parseFracTail (r.dropWhile isDigitCh))

/-- Greedy parse of the regex fragment -?\d+(\.\d+)? at the head of the
input. -/
def parseSigned (r : List Char) : Option Numeral :=
  match r with
  | '-' :: t => (parseDigitsFrac t).map fun p => ⟨true, p.1, p.2⟩
  | _ => (parseDigitsFrac r).map fun p => ⟨false, p.1, p.2⟩

/-- The literal part of the pattern, already lowercase. -/
def faMarker : List Char := "final answer:".toList

/-- Try to match the full pattern at this position of the input; on success
return the capture of group 1. -/
def matchAt (s : List Char) : Option Numeral :=
  match matchLit faMarker s with
  | none => none
  | some r1 => parseSigned (r1.dropWhile isSpaceCh)

/-- The search of re.search: the match at the leftmost position where the
whole pattern matches, scanning positions left to right. -/
def searchFA : List Char → Option Numeral
  | [] => none
  | c :: t =>
    match matchAt (c :: t) with
    | some v => some v
    | none => searchFA t

/-- Digit characters to a natural number, most significant first. -/
def digitsToNat (ds : List Char) : ℕ :=
  ds.foldl (fun a c => 10 * a + (c.toNat - 48)) 0

/-- The numeric value of the captured group, as float(...) computes it,
modelled exactly over the rationals. -/
def numeralValue (v : Numeral) : ℚ :=
  let ip : ℚ := digitsToNat v.intDigits
  let mag : ℚ :=
    match v.fracDigits with
    | none => ip
    | some fs => ip + (digitsToNat fs : ℚ) / (10 : ℚ) ^ fs.length
  if v.neg then -mag else mag

/-- A node of the search tree, mirroring class LLMNode of src/node.py.
The fields previous_state, prompt, output and state are the attributes set
by LLMNode.__init__ together with make_a_move; parent is the back
reference passed at construction; children is the lazily cached list that
find_children materializes at most once. -/
inductive LLMNode : Type where
  | mk (previous_state prompt output state : String)
       (parent : Option LLMNode) (children : Option (List LLMNode)) : LLMNode

def LLMNode.previous_state : LLMNode → String
  | .mk a _ _ _ _ _ => a

def LLMNode.prompt : LLMNode → String
  | .mk _ b _ _ _ _ => b

def LLMNode.output : LLMNode → String
  | .mk _ _ c _ _ _ => c

def LLMNode.state : LLMNode → String
  | .mk _ _ _ d _ _ => d

def LLMNode.parent : LLMNode → Option LLMNode
  | .mk _ _ _ _ p _ => p

def LLMNode.children : LLMNode → Option (List LLMNode)
  | .mk _ _ _ _ _ cs => cs

/-- Replace the children cache field, modelling the assignment
self.children = [...] inside find_children. -/
def LLMNode.withChildren : LLMNode → Option (List LLMNode) → LLMNode
  | .mk a b c d p _, cs => .mk a b c d p cs

/-- is_terminal of src/node.py: re.search of the final-answer pattern over
the generated output, with the truthiness of the returned match object.
It takes no oracle and reads only the output field. -/
def LLMNode.is_terminal (n : LLMNode) : Bool :=
  (searchFA n.output.toList).isSome

/-- The failure modes of reward: the assertion on a non-terminal node
(PreconditionError of the spec), and the hypothetical failure of the
group extraction on a terminal node (ParseError of the spec). -/
inductive RewardError where
  | precondition
  | parseFailure
  deriving DecidableEq

/-- reward of src/node.py: assert is_terminal, search the same pattern over
the output, convert group 1 to a number and compare with the ground
truth. -/
def LLMNode.reward (n : LLMNode) (ground_truth : ℚ) : Except RewardError ℕ :=
  if n.is_terminal then
    match searchFA n.output.toList with
    | none => .error .parseFailure
    | some v => if numeralValue v = ground_truth then .ok 1 else .ok 0
  else .error .precondition

/-- The oracle capability: get_output as a function from the prompt text to
the generated text. Oracle calls made by node operations are recorded in an
explicit log of prompts, one entry per API call. -/
def Oracle := String → String

/-- Persona tags of the three subclasses in src/node.py. -/
def sillyTag : String := "Silly Man: "

def funnyTag : String := "Funny Man: "

def smartTag : String := "Smart Man: "

/-- LLMNode.__init__ for a persona subclass: make_a_move sends
previous_state + prompt to the oracle, stores the output, and the state
becomes previous_state + prompt + output; the children cache starts
unmaterialized. The returned log extends the given one with the single
prompt sent. -/
def mkChild (tag : String) (oracle : Oracle) (prev : String)
    (parent : Option LLMNode) (log : List String) : LLMNode × List String :=
  let p := prev ++ tag
  let out := oracle p
  (LLMNode.mk prev tag out (prev ++ tag ++ out) parent none, log ++ [p])

/-- QuestionNode construction: its make_a_move override stores the question
itself as the output and the state, and performs no oracle call, so the log
is returned unchanged. The prompt field is the inherited "LLM: " tag, which
is never appended to the state. -/
def mkQuestionNode (question : String) (log : List String) :
    LLMNode × List String :=
  (LLMNode.mk question "LLM: " question question none none, log)

/-- Python truthiness of the children cache in the guard
if not self.children. -/
def notTruthy : Option (List LLMNode) → Bool
  | none => true
  | some l => l.isEmpty

/-- find_children of src/node.py: when the cache is falsy, construct the
silly, funny and smart children in order, each from the current state, cache
the three-element list, and return it; otherwise return the cache with no
oracle call. -/
def LLMNode.find_children (n : LLMNode) (oracle : Oracle) (log : List String) :
    LLMNode × List LLMNode × List String :=
  if notTruthy n.children then
    let r1 := mkChild sillyTag oracle n.state (some n) log
    let r2 := mkChild funnyTag oracle n.state (some n) r1.2
    let r3 := mkChild smartTag oracle n.state (some n) r2.2
    (n.withChildren (some [r1.1, r2.1, r3.1]), [r1.1, r2.1, r3.1], r3.2)
  else
    (n, n.children.getD [], log)

/-- The uniform choice of random.choice over the class list
[SillyNode, FunnyNode, SmartNode], indexed by an equiprobable index. -/
def personaTag : Fin 3 → String
  | ⟨0, _⟩ => sillyTag
  | ⟨1, _⟩ => funnyTag
  | ⟨2, _⟩ => smartTag

/-- find_random_child of src/node.py: build one fresh child of the randomly
chosen persona from the current state; the children cache is neither read
nor written. -/
def LLMNode.find_random_child (n : LLMNode) (choice : Fin 3) (oracle : Oracle)
    (log : List String) : LLMNode × List String :=
  mkChild (personaTag choice) oracle n.state (some n) log

/-- A fallible oracle: get_output either returns text or raises, the error
value carrying the cause. -/
def OracleE := String → Except String String

/-- Child construction under a fallible oracle: the node exists only when
the oracle call returns. -/
def mkChildE (tag : String) (oracle : OracleE) (prev : String)
    (parent : Option LLMNode) : Except String LLMNode :=
  match oracle (prev ++ tag) with
  | .error e => .error e
  | .ok out => .ok (LLMNode.mk prev tag out (prev ++ tag ++ out) parent none)

/-- find_children under a fallible oracle, returning the outcome together
with the post-call node. The three constructor calls are evaluated left to
right inside the list literal, and the assignment to self.children happens
only after the whole literal is built, so on any failure the node is
returned unchanged. -/
def LLMNode.find_children_exc (n : LLMNode) (oracle : OracleE) :
    Except String (List LLMNode) × LLMNode :=
  if notTruthy n.children then
    match mkChildE sillyTag oracle n.state (some n) with
    | .error e => (.error e, n)
    | .ok c1 =>
      match mkChildE funnyTag oracle n.state (some n) with
      | .error e => (.error e, n)
      | .ok c2 =>
        match mkChildE smartTag oracle n.state (some n) with
        | .error e => (.error e, n)
        | .ok c3 => (.ok [c1, c2, c3], n.withChildren (some [c1, c2, c3]))
  else (.ok (n.children.getD []), n)

/-- The token-usage counters of class ModelCalls in src/model_calls.py,
initialized to zero in __init__. -/
structure TokenUsage where
  total_prompt_tokens : ℕ
  total_completion_tokens : ℕ
  total_tokens : ℕ
  api_calls : ℕ
  deriving DecidableEq

/-- The all-zero counters set in ModelCalls.__init__. -/
def initTokenUsage : TokenUsage := ⟨0, 0, 0, 0⟩

/-- add_token_usage of src/model_calls.py: increment the prompt, completion
and total counters and bump the call count by one. -/
def add_token_usage (u : TokenUsage) (prompt_tokens completion_tokens : ℕ) :
    TokenUsage :=
  ⟨u.total_prompt_tokens + prompt_tokens,
   u.total_completion_tokens + completion_tokens,
   u.total_tokens + (prompt_tokens + completion_tokens),
   u.api_calls + 1⟩

/-- get_token_usage of src/model_calls.py: read the four counters; the
accounting structure itself is not modified. -/
def get_token_usage (u : TokenUsage) : ℕ × ℕ × ℕ × ℕ :=
  (u.total_prompt_tokens, u.total_completion_tokens, u.total_tokens,
   u.api_calls)

/-- Fold a sequence of recorded successful calls, each reporting a prompt
and a completion token count, into the accounting structure. -/
def applyTokenCalls (u : TokenUsage) (calls : List (ℕ × ℕ)) : TokenUsage :=
  calls.foldl (fun a pc => add_token_usage a pc.1 pc.2) u

/-- Outcome of the get_output retry loop: a returned text, a re-raised last
exception after exhausting the retries, or the implicit None return that
Python produces when the loop body never runs. -/
inductive GOResult where
  | ok (text : String)
  | raised (cause : String)
  | noneReturned
  deriving DecidableEq

/-- The retry loop shared by OpenAIModelCalls.get_output and
DeepSeekModelCalls.get_output. The function f gives the outcome of the
request attempt made when the loop counter has the given value; fuel is
max_retries minus the loop counter. The result carries the loop outcome,
the number of attempts made and the list of sleep durations, one entry of
retry_delay per sleep between consecutive failed attempts. -/
def getOutputLoop (f : ℕ → Except String String) (retry_delay : ℕ) :
    ℕ → ℕ → GOResult × ℕ × List ℕ
  | _, 0 => (.noneReturned, 0, [])
  | attempt, fuel + 1 =>
    match f attempt with
    | .ok s => (.ok s, 1, [])
    | .error e =>
      match fuel with
      | 0 => (.raised e, 1, [])
      | f2 + 1 =>
        let r := getOutputLoop f retry_delay (attempt + 1) (f2 + 1)
        (r.1, r.2.1 + 1, retry_delay :: r.2.2)

/-- get_output of src/model_calls.py: run the retry loop starting at
attempt zero. -/
def get_output (f : ℕ → Except String String) (max_retries retry_delay : ℕ) :
    GOResult × ℕ × List ℕ :=
  getOutputLoop f retry_delay 0 max_retries

/-- Modelled from the wording of the spec for is-terminal: the shape of an
optionally-signed, optionally-decimal numeral. -/
def SpecNumeral (num : List Char) : Prop :=
  ∃ sign ds frac,
    num = sign ++ ds ++ frac ∧
    (sign = [] ∨ sign = ['-']) ∧
    ds ≠ [] ∧ (∀ c ∈ ds, isDigitCh c = true) ∧
    (frac = [] ∨ ∃ fs, frac = '.' :: fs ∧ fs ≠ [] ∧ ∀ c ∈ fs, isDigitCh c = true)

/-- Modelled from the wording of the spec for is-terminal: the text
contains, case-insensitively, the marker final answer: followed by optional
whitespace and a numeral. -/
def SpecTerminal (text : String) : Prop :=
  ∃ pre marker ws num post,
    text.toList = pre ++ marker ++ ws ++ num ++ post ∧
    marker.map lowerCh = faMarker ∧
    (∀ c ∈ ws, isSpaceCh c = true) ∧
    SpecNumeral num

/- ------------------------------------------------------------------ -/
/- Helper lemmas                                                      -/
/- ------------------------------------------------------------------ -/

theorem applyTokenCalls_cons (u : TokenUsage) (pc : ℕ × ℕ)
    (calls : List (ℕ × ℕ)) :
    applyTokenCalls u (pc :: calls) =
      applyTokenCalls (add_token_usage u pc.1 pc.2) calls := rfl

theorem applyTokenCalls_total (calls : List (ℕ × ℕ)) :
    ∀ u : TokenUsage,
      u.total_tokens = u.total_prompt_tokens + u.total_completion_tokens →
      (applyTokenCalls u calls).total_tokens =
        (applyTokenCalls u calls).total_prompt_tokens +
          (applyTokenCalls u calls).total_completion_tokens := by
  induction calls with
  | nil => intro u h; exact h
  | cons pc t ih =>
    intro u h
    rw [applyTokenCalls_cons]
    exact ih _ (by simp [add_token_usage, h]; ring)

theorem applyTokenCalls_mono (calls : List (ℕ × ℕ)) :
    ∀ u : TokenUsage,
      u.total_prompt_tokens ≤ (applyTokenCalls u calls).total_prompt_tokens ∧
      u.total_completion_tokens ≤
        (applyTokenCalls u calls).total_completion_tokens ∧
      u.total_tokens ≤ (applyTokenCalls u calls).total_tokens ∧
      u.api_calls ≤ (applyTokenCalls u calls).api_calls := by
  induction calls with
  | nil => intro u; exact ⟨le_refl _, le_refl _, le_refl _, le_refl _⟩
  | cons pc t ih =>
    intro u
    rw [applyTokenCalls_cons]
    obtain ⟨h1, h2, h3, h4⟩ := ih (add_token_usage u pc.1 pc.2)
    refine ⟨le_trans ?_ h1, le_trans ?_ h2, le_trans ?_ h3, le_trans ?_ h4⟩ <;>
      simp [add_token_usage]

theorem applyTokenCalls_count (calls : List (ℕ × ℕ)) :
    ∀ u : TokenUsage,
      (applyTokenCalls u calls).api_calls = u.api_calls + calls.length := by
  induction calls with
  | nil => intro u; simp [applyTokenCalls]
  | cons pc t ih =>
    intro u
    rw [applyTokenCalls_cons, ih]
    simp [add_token_usage]
    ring

theorem getOutputLoop_attempts_le (f : ℕ → Except String String) (d : ℕ) :
    ∀ (fuel a : ℕ), (getOutputLoop f d a fuel).2.1 ≤ fuel := by
  intro fuel
  induction fuel with
  | zero => intro a; simp [getOutputLoop]
  | succ fl ih =>
    intro a
    rw [getOutputLoop]
    cases hf : f a with
    | ok s => simp
    | error e =>
      cases fl with
      | zero => simp
      | succ f2 =>
        simp only
        have := ih (a + 1)
        omega

theorem getOutputLoop_success (f : ℕ → Except String String) (d : ℕ) :
    ∀ (k fuel a : ℕ) (s : String), k < fuel →
      (∀ j, j < k → ∃ e, f (a + j) = Except.error e) →
      f (a + k) = Except.ok s →
      getOutputLoop f d a fuel = (.ok s, k + 1, List.replicate k d) := by
  intro k
  induction k with
  | zero =>
    intro fuel a s hk _ hok
    obtain ⟨fl, rfl⟩ : ∃ fl, fuel = fl + 1 := ⟨fuel - 1, by omega⟩
    rw [getOutputLoop]
    simp only [Nat.add_zero] at hok
    rw [hok]
    simp
  | succ k' ih =>
    intro fuel a s hk herr hok
    obtain ⟨fl, rfl⟩ : ∃ fl, fuel = fl + 1 := ⟨fuel - 1, by omega⟩
    rw [getOutputLoop]
    obtain ⟨e0, he0⟩ := herr 0 (Nat.succ_pos k')
    rw [Nat.add_zero] at he0
    rw [he0]
    obtain ⟨f2, rfl⟩ : ∃ f2, fl = f2 + 1 := ⟨fl - 1, by omega⟩
    simp only
    have hrec := ih (f2 + 1) (a + 1) s (by omega)
      (fun j hj => by
        have := herr (j + 1) (by omega)
        rwa [show a + (j + 1) = a + 1 + j by omega] at this)
      (by rwa [show a + 1 + k' = a + (k' + 1) by omega])
    rw [hrec]
    simp [List.replicate_succ]

theorem getOutputLoop_allFail (f : ℕ → Except String String) (d : ℕ)
    (e : ℕ → String) :
    ∀ (fuel a : ℕ), 0 < fuel →
      (∀ j, j < fuel → f (a + j) = Except.error (e (a + j))) →
      getOutputLoop f d a fuel =
        (.raised (e (a + fuel - 1)), fuel, List.replicate (fuel - 1) d) := by
  intro fuel
  induction fuel with
  | zero => intro a h; omega
  | succ fl ih =>
    intro a _ herr
    rw [getOutputLoop]
    have h0 := herr 0 (Nat.succ_pos fl)
    rw [Nat.add_zero] at h0
    rw [h0]
    cases fl with
    | zero => simp
    | succ f2 =>
      simp only
      have hrec := ih (a + 1) (Nat.succ_pos f2)
        (fun j hj => by
          have := herr (j + 1) (by omega)
          rwa [show a + (j + 1) = a + 1 + j by omega] at this)
      rw [hrec]
      have h1 : a + 1 + (f2 + 1) - 1 = a + (f2 + 1 + 1) - 1 := by omega
      rw [h1]
      simp [List.replicate_succ]

theorem LLMNode.children_withChildren (n : LLMNode)
    (cs : Option (List LLMNode)) : (n.withChildren cs).children = cs := by
  cases n; rfl

theorem LLMNode.state_withChildren (n : LLMNode)
    (cs : Option (List LLMNode)) : (n.withChildren cs).state = n.state := by
  cases n; rfl

theorem LLMNode.previousState_withChildren (n : LLMNode)
    (cs : Option (List LLMNode)) :
    (n.withChildren cs).previous_state = n.previous_state := by
  cases n; rfl

theorem mkChild_fst (tag : String) (oracle : Oracle) (prev : String)
    (parent : Option LLMNode) (log : List String) :
    (mkChild tag oracle prev parent log).1 =
      LLMNode.mk prev tag (oracle (prev ++ tag))
        (prev ++ tag ++ oracle (prev ++ tag)) parent none := rfl

theorem mkChild_snd (tag : String) (oracle : Oracle) (prev : String)
    (parent : Option LLMNode) (log : List String) :
    (mkChild tag oracle prev parent log).2 = log ++ [prev ++ tag] := rfl

theorem find_children_cached (m : LLMNode) (cs : List LLMNode)
    (hne : cs ≠ []) (hc : m.children = some cs) (oracle : Oracle)
    (log2 : List String) : m.find_children oracle log2 = (m, cs, log2) := by
  have hnt : notTruthy m.children = false := by
    rw [hc]
    cases cs with
    | nil => exact absurd rfl hne
    | cons a t => rfl
  rw [LLMNode.find_children, hnt]
  simp [hc]

/-- Wellformedness of a captured numeral: nonempty integer digits, all
digit characters, and when the fraction group matched, a nonempty all-digit
fraction. -/
def WfNumeral (v : Numeral) : Prop :=
  v.intDigits ≠ [] ∧ (∀ c ∈ v.intDigits, isDigitCh c = true) ∧
  ∀ fs, v.fracDigits = some fs → fs ≠ [] ∧ ∀ c ∈ fs, isDigitCh c = true

theorem parseFracTail_wf (r : List Char) (fs : List Char)
    (h : parseFracTail r = some fs) :
    fs ≠ [] ∧ ∀ c ∈ fs, isDigitCh c = true := by
  unfold parseFracTail at h
  split at h
  · rename_i t
    split at h
    · exact Option.noConfusion h
    · rename_i hfne
      simp only [Option.some.injEq] at h
      subst h
      exact ⟨fun hnil => by rw [hnil] at hfne; exact hfne rfl,
        fun c hc => List.mem_takeWhile_imp hc⟩
  · exact Option.noConfusion h

theorem parseDigitsFrac_wf (r : List Char) (ds : List Char)
    (fo : Option (List Char)) (h : parseDigitsFrac r = some (ds, fo)) :
    ds ≠ [] ∧ (∀ c ∈ ds, isDigitCh c = true) ∧
    ∀ fs, fo = some fs → fs ≠ [] ∧ ∀ c ∈ fs, isDigitCh c = true := by
  unfold parseDigitsFrac at h
  split at h
  · exact Option.noConfusion h
  · rename_i hde
    have hne : r.takeWhile isDigitCh ≠ [] := fun hnil => by
      rw [hnil] at hde
      exact hde rfl
    simp only [Option.some.injEq, Prod.mk.injEq] at h
    obtain ⟨rfl, rfl⟩ := h
    exact ⟨hne, fun c hc => List.mem_takeWhile_imp hc,
      fun fs hfs => parseFracTail_wf _ fs hfs⟩

theorem parseSigned_wf (r : List Char) (v : Numeral)
    (h : parseSigned r = some v) : WfNumeral v := by
  unfold parseSigned at h
  split at h
  · rename_i t
    cases hp : parseDigitsFrac t with
    | none => rw [hp] at h; exact Option.noConfusion h
    | some p =>
      rw [hp] at h
      simp only [Option.map_some'] at h
      simp only [Option.some.injEq] at h
      obtain ⟨hds, hall, hfs⟩ := parseDigitsFrac_wf t p.1 p.2 (by rw [hp])
      subst h
      exact ⟨hds, hall, hfs⟩
  · cases hp : parseDigitsFrac r with
    | none => rw [hp] at h; exact Option.noConfusion h
    | some p =>
      rw [hp] at h
      simp only [Option.map_some'] at h
      simp only [Option.some.injEq] at h
      obtain ⟨hds, hall, hfs⟩ := parseDigitsFrac_wf r p.1 p.2 (by rw [hp])
      subst h
      exact ⟨hds, hall, hfs⟩

theorem matchAt_wf (s : List Char) (v : Numeral) (h : matchAt s = some v) :
    WfNumeral v := by
  unfold matchAt at h
  split at h
  · exact Option.noConfusion h
  · exact parseSigned_wf _ v h

theorem searchFA_wf : ∀ (s : List Char) (v : Numeral),
    searchFA s = some v → WfNumeral v := by
  intro s
  induction s with
  | nil => intro v h; exact Option.noConfusion h
  | cons c t ih =>
    intro v h
    rw [searchFA] at h
    cases hm : matchAt (c :: t) with
    | some w =>
      rw [hm] at h
      simp only [Option.some.injEq] at h
      subst h
      exact matchAt_wf _ _ hm
    | none =>
      rw [hm] at h
      exact ih v h

theorem matchLit_some_decomp : ∀ (p s r : List Char),
    matchLit p s = some r → ∃ m, s = m ++ r ∧ m.map lowerCh = p.map lowerCh := by
  intro p
  induction p with
  | nil =>
    intro s r h
    simp only [matchLit, Option.some.injEq] at h
    exact ⟨[], by rw [h]; simp, rfl⟩
  | cons q ps ih =>
    intro s r h
    cases s with
    | nil => exact Option.noConfusion h
    | cons c cs =>
      rw [matchLit] at h
      split_ifs at h with hci
      obtain ⟨m, hm1, hm2⟩ := ih cs r h
      refine ⟨c :: m, by rw [hm1]; rfl, ?_⟩
      rw [ciEq] at hci
      simp only [List.map_cons, hm2, List.cons.injEq]
      exact ⟨(beq_iff_eq.mp hci).symm, trivial⟩

theorem matchLit_of_map : ∀ (p m r : List Char),
    m.map lowerCh = p.map lowerCh → matchLit p (m ++ r) = some r := by
  intro p
  induction p with
  | nil =>
    intro m r h
    simp only [List.map_nil, List.map_eq_nil_iff] at h
    rw [h]
    rfl
  | cons q ps ih =>
    intro m r h
    cases m with
    | nil => simp at h
    | cons c m2 =>
      simp only [List.map_cons, List.cons.injEq] at h
      obtain ⟨h1, h2⟩ := h
      rw [List.cons_append, matchLit, if_pos (by rw [ciEq, h1]; exact beq_self_eq_true _)]
      exact ih m2 r h2

theorem digit_not_space (c : Char) (h : isDigitCh c = true) :
    isSpaceCh c = false := by
  have h1 : c ≠ ' ' := fun hc => by subst hc; exact absurd h (by decide)
  have h2 : c ≠ '\t' := fun hc => by subst hc; exact absurd h (by decide)
  have h3 : c ≠ '\n' := fun hc => by subst hc; exact absurd h (by decide)
  have h4 : c ≠ '\r' := fun hc => by subst hc; exact absurd h (by decide)
  have h5 : c ≠ '\x0b' := fun hc => by subst hc; exact absurd h (by decide)
  have h6 : c ≠ '\x0c' := fun hc => by subst hc; exact absurd h (by decide)
  simp [isSpaceCh, h1, h2, h3, h4, h5, h6]

theorem digit_ne_minus (c : Char) (h : isDigitCh c = true) : c ≠ '-' :=
  fun hc => by subst hc; exact absurd h (by decide)

theorem dropWhile_all_append (p : Char → Bool) :
    ∀ (ws rest : List Char), (∀ c ∈ ws, p c = true) →
      (∀ c t, rest = c :: t → p c = false) →
      (ws ++ rest).dropWhile p = rest := by
  intro ws
  induction ws with
  | nil =>
    intro rest _ hrest
    cases rest with
    | nil => rfl
    | cons c t => simp [List.dropWhile_cons, hrest c t rfl]
  | cons w ws2 ih =>
    intro rest hws hrest
    have hw : p w = true := hws w (List.mem_cons_self w ws2)
    rw [List.cons_append, List.dropWhile_cons]
    simp only [hw, if_true]
    exact ih rest (fun c hc => hws c (List.mem_cons_of_mem w hc)) hrest

theorem searchFA_isSome_of_matchAt : ∀ (pre suf : List Char) (v : Numeral),
    matchAt suf = some v → (searchFA (pre ++ suf)).isSome = true := by
  intro pre
  induction pre with
  | nil =>
    intro suf v h
    cases suf with
    | nil =>
      have hnone : matchAt [] = none := rfl
      rw [hnone] at h
      exact Option.noConfusion h
    | cons c t =>
      rw [List.nil_append, searchFA, h]
      rfl
  | cons a pre2 ih =>
    intro suf v h
    rw [List.cons_append, searchFA]
    cases hm : matchAt (a :: (pre2 ++ suf)) with
    | some w => rfl
    | none => exact ih suf v h

theorem searchFA_some_decomp : ∀ (s : List Char) (v : Numeral),
    searchFA s = some v → ∃ pre suf, s = pre ++ suf ∧ matchAt suf = some v := by
  intro s
  induction s with
  | nil => intro v h; exact Option.noConfusion h
  | cons c t ih =>
    intro v h
    rw [searchFA] at h
    cases hm : matchAt (c :: t) with
    | some w =>
      rw [hm] at h
      simp only [Option.some.injEq] at h
      subst h
      exact ⟨[], c :: t, rfl, hm⟩
    | none =>
      rw [hm] at h
      obtain ⟨pre, suf, h1, h2⟩ := ih v h
      exact ⟨c :: pre, suf, by rw [h1]; rfl, h2⟩

theorem parseFracTail_decomp (u : List Char) (fs : List Char)
    (h : parseFracTail u = some fs) : ∃ rest, u = '.' :: (fs ++ rest) := by
  unfold parseFracTail at h
  split at h
  · rename_i t
    split at h
    · exact Option.noConfusion h
    · simp only [Option.some.injEq] at h
      subst h
      exact ⟨t.dropWhile isDigitCh,
        by rw [List.takeWhile_append_dropWhile isDigitCh t]⟩
  · exact Option.noConfusion h

theorem parseDigitsFrac_decomp (r : List Char) (ds : List Char)
    (fo : Option (List Char)) (h : parseDigitsFrac r = some (ds, fo)) :
    ds ≠ [] ∧ (∀ c ∈ ds, isDigitCh c = true) ∧
    ((fo = none ∧ r = ds ++ r.dropWhile isDigitCh) ∨
     (∃ fs rest, fo = some fs ∧ fs ≠ [] ∧ (∀ c ∈ fs, isDigitCh c = true) ∧
        r = ds ++ '.' :: (fs ++ rest))) := by
  obtain ⟨hne, hdig, hwf⟩ := parseDigitsFrac_wf r ds fo h
  unfold parseDigitsFrac at h
  split at h
  · exact Option.noConfusion h
  · simp only [Option.some.injEq, Prod.mk.injEq] at h
    obtain ⟨hds, hfo⟩ := h
    refine ⟨hne, hdig, ?_⟩
    cases fo with
    | none =>
      exact Or.inl ⟨rfl, by
        rw [← hds]
        exact (List.takeWhile_append_dropWhile isDigitCh r).symm⟩
    | some fs =>
      obtain ⟨rest, hrest⟩ := parseFracTail_decomp _ fs hfo
      obtain ⟨hfne, hfdig⟩ := hwf fs rfl
      refine Or.inr ⟨fs, rest, rfl, hfne, hfdig, ?_⟩
      rw [← hds, ← hrest]
      exact (List.takeWhile_append_dropWhile isDigitCh r).symm

theorem parseSigned_decomp (r : List Char) (v : Numeral)
    (h : parseSigned r = some v) :
    ∃ sign ds fro rest, r = sign ++ ds ++ fro ++ rest ∧
      (sign = [] ∨ sign = ['-']) ∧ ds ≠ [] ∧
      (∀ c ∈ ds, isDigitCh c = true) ∧
      (fro = [] ∨ ∃ fs, fro = '.' :: fs ∧ fs ≠ [] ∧
        ∀ c ∈ fs, isDigitCh c = true) := by
  unfold parseSigned at h
  split at h
  · rename_i t
    cases hp : parseDigitsFrac t with
    | none => rw [hp] at h; exact Option.noConfusion h
    | some p =>
      obtain ⟨hne, hdig, hcase⟩ := parseDigitsFrac_decomp t p.1 p.2 (by rw [hp])
      rcases hcase with ⟨_, ht⟩ | ⟨fs, rest, _, hfne, hfdig, ht⟩
      · exact ⟨['-'], p.1, [], t.dropWhile isDigitCh,
          by conv_lhs => rw [ht]
             simp,
          Or.inr rfl, hne, hdig, Or.inl rfl⟩
      · exact ⟨['-'], p.1, '.' :: fs, rest,
          by conv_lhs => rw [ht]
             simp,
          Or.inr rfl, hne, hdig, Or.inr ⟨fs, rfl, hfne, hfdig⟩⟩
  · cases hp : parseDigitsFrac r with
    | none => rw [hp] at h; exact Option.noConfusion h
    | some p =>
      obtain ⟨hne, hdig, hcase⟩ := parseDigitsFrac_decomp r p.1 p.2 (by rw [hp])
      rcases hcase with ⟨_, ht⟩ | ⟨fs, rest, _, hfne, hfdig, ht⟩
      · exact ⟨[], p.1, [], r.dropWhile isDigitCh,
          by conv_lhs => rw [ht]
             simp,
          Or.inl rfl, hne, hdig, Or.inl rfl⟩
      · exact ⟨[], p.1, '.' :: fs, rest,
          by conv_lhs => rw [ht]
             simp,
          Or.inl rfl, hne, hdig, Or.inr ⟨fs, rfl, hfne, hfdig⟩⟩

theorem faMarker_lower : faMarker.map lowerCh = faMarker := by decide

theorem matchAt_spec_decomp (s : List Char) (v : Numeral)
    (h : matchAt s = some v) :
    ∃ marker ws num post, s = marker ++ (ws ++ (num ++ post)) ∧
      marker.map lowerCh = faMarker ∧ (∀ c ∈ ws, isSpaceCh c = true) ∧
      SpecNumeral num := by
  unfold matchAt at h
  split at h
  · exact Option.noConfusion h
  · rename_i r1 heq
    obtain ⟨m, hsm, hmap⟩ := matchLit_some_decomp faMarker s r1 heq
    obtain ⟨sign, ds, fro, rest, hr2, hsign, hds, hdig, hfro⟩ :=
      parseSigned_decomp _ v h
    refine ⟨m, r1.takeWhile isSpaceCh, sign ++ ds ++ fro, rest, ?_,
      by rw [hmap, faMarker_lower],
      fun c hc => List.mem_takeWhile_imp hc,
      ⟨sign, ds, fro, rfl, hsign, hds, hdig, hfro⟩⟩
    rw [hsm]
    have h2 : r1 = r1.takeWhile isSpaceCh ++ ((sign ++ ds ++ fro) ++ rest) := by
      conv_lhs => rw [← List.takeWhile_append_dropWhile isSpaceCh r1]
      rw [hr2]
    conv_lhs => rw [h2]

theorem parseDigitsFrac_isSome (d : Char) (t : List Char)
    (hd : isDigitCh d = true) : ∃ p, parseDigitsFrac (d :: t) = some p := by
  unfold parseDigitsFrac
  have htw : (d :: t).takeWhile isDigitCh = d :: t.takeWhile isDigitCh := by
    simp [List.takeWhile_cons, hd]
  rw [if_neg (by rw [htw]; exact Bool.noConfusion)]
  exact ⟨_, rfl⟩

theorem parseSigned_cons_ne_minus (c : Char) (t : List Char) (hc : c ≠ '-') :
    parseSigned (c :: t) =
      (parseDigitsFrac (c :: t)).map fun p => ⟨false, p.1, p.2⟩ := by
  unfold parseSigned
  split
  · rename_i t2 heq
    injection heq with h1 h2
    exact absurd h1 hc
  · rfl

theorem spec_matchAt (marker ws num post : List Char)
    (hmk : marker.map lowerCh = faMarker)
    (hws : ∀ c ∈ ws, isSpaceCh c = true) (hnum : SpecNumeral num) :
    ∃ v, matchAt (marker ++ (ws ++ (num ++ post))) = some v := by
  obtain ⟨sign, ds, fro, hn, hsign, hdsne, hdig, hfro⟩ := hnum
  obtain ⟨d, ds2, rfl⟩ : ∃ d ds2, ds = d :: ds2 := by
    cases ds with
    | nil => exact absurd rfl hdsne
    | cons d ds2 => exact ⟨d, ds2, rfl⟩
  have hd : isDigitCh d = true := hdig d (List.mem_cons_self _ _)
  unfold matchAt
  rw [matchLit_of_map faMarker marker _ (by rw [hmk, faMarker_lower])]
  have hdrop : (ws ++ (num ++ post)).dropWhile isSpaceCh = num ++ post := by
    apply dropWhile_all_append isSpaceCh ws (num ++ post) hws
    intro c t hct
    rcases hsign with rfl | rfl
    · rw [hn] at hct
      simp only [List.nil_append, List.cons_append, List.append_assoc,
        List.cons.injEq] at hct
      rw [← hct.1]
      exact digit_not_space d hd
    · rw [hn] at hct
      simp only [List.cons_append, List.append_assoc,
        List.cons.injEq] at hct
      rw [← hct.1]
      decide
  show ∃ v, parseSigned ((ws ++ (num ++ post)).dropWhile isSpaceCh) = some v
  rw [hdrop]
  rcases hsign with rfl | rfl
  · have hshape : num ++ post = d :: (ds2 ++ (fro ++ post)) := by
      rw [hn]; simp
    rw [hshape, parseSigned_cons_ne_minus d _ (digit_ne_minus d hd)]
    obtain ⟨p, hp⟩ := parseDigitsFrac_isSome d _ hd
    rw [hp]
    exact ⟨_, rfl⟩
  · have hshape : num ++ post = '-' :: (d :: (ds2 ++ (fro ++ post))) := by
      rw [hn]; simp
    rw [hshape]
    have hred : parseSigned ('-' :: (d :: (ds2 ++ (fro ++ post)))) =
        (parseDigitsFrac (d :: (ds2 ++ (fro ++ post)))).map
          fun p => ⟨true, p.1, p.2⟩ := rfl
    rw [hred]
    obtain ⟨p, hp⟩ := parseDigitsFrac_isSome d (ds2 ++ (fro ++ post)) hd
    rw [hp]
    exact ⟨_, rfl⟩

/- ------------------------------------------------------------------ -/
/- Claim theorems                                                     -/
/- ------------------------------------------------------------------ -/

/-- C9: the token-usage accounting is updated once per recorded successful
call; every counter is monotonically non-decreasing under any sequence of
recorded calls, the reported total always equals the sum of the reported
prompt and completion counters when starting from the zero state of
__init__, the call counter counts exactly one increment per recorded call,
and get_token_usage reads the counters without changing them. -/
theorem token_accounting_invariants :
    (∀ calls : List (ℕ × ℕ),
      (applyTokenCalls initTokenUsage calls).total_tokens =
        (applyTokenCalls initTokenUsage calls).total_prompt_tokens +
          (applyTokenCalls initTokenUsage calls).total_completion_tokens) ∧
    (∀ (u : TokenUsage) (calls : List (ℕ × ℕ)),
      u.total_prompt_tokens ≤ (applyTokenCalls u calls).total_prompt_tokens ∧
      u.total_completion_tokens ≤
        (applyTokenCalls u calls).total_completion_tokens ∧
      u.total_tokens ≤ (applyTokenCalls u calls).total_tokens ∧
      u.api_calls ≤ (applyTokenCalls u calls).api_calls) ∧
    (∀ (u : TokenUsage) (calls : List (ℕ × ℕ)),
      (applyTokenCalls u calls).api_calls = u.api_calls + calls.length) ∧
    (∀ u : TokenUsage, get_token_usage u =
      (u.total_prompt_tokens, u.total_completion_tokens, u.total_tokens,
        u.api_calls)) := by
  refine ⟨fun calls => applyTokenCalls_total calls initTokenUsage rfl,
    fun u calls => applyTokenCalls_mono calls u,
    fun u calls => applyTokenCalls_count calls u,
    fun u => rfl⟩

/-- C8: get_output makes at most max_retries attempts, sleeping retry_delay
between consecutive failed attempts; it returns the text of the first
successful attempt, having made one attempt per prior failure plus one and
slept once per prior failure; and when every attempt fails it re-raises the
cause of the last attempt instead of returning a value, having made exactly
max_retries attempts. -/
theorem get_output_retry_contract (f : ℕ → Except String String)
    (max_retries retry_delay : ℕ) (h : 1 ≤ max_retries) :
    (get_output f max_retries retry_delay).2.1 ≤ max_retries ∧
    (∀ k s, k < max_retries → (∀ j, j < k → ∃ e, f j = Except.error e) →
      f k = Except.ok s →
      get_output f max_retries retry_delay =
        (GOResult.ok s, k + 1, List.replicate k retry_delay)) ∧
    (∀ e : ℕ → String, (∀ k, k < max_retries → f k = Except.error (e k)) →
      get_output f max_retries retry_delay =
        (GOResult.raised (e (max_retries - 1)), max_retries,
          List.replicate (max_retries - 1) retry_delay)) := by
  refine ⟨getOutputLoop_attempts_le f retry_delay max_retries 0, ?_, ?_⟩
  · intro k s hk herr hok
    exact getOutputLoop_success f retry_delay k max_retries 0 s hk
      (fun j hj => by simpa using herr j hj) (by simpa using hok)
  · intro e herr
    have := getOutputLoop_allFail f retry_delay e max_retries 0 (by omega)
      (fun j hj => by simpa using herr j hj)
    simpa using this

/-- C8 witness: with three allowed attempts, a first attempt that fails and
a second that succeeds, get_output returns the text after two attempts and
one sleep. -/
theorem get_output_retry_contract_witness :
    get_output (fun j => if j = 0 then Except.error "boom" else Except.ok "text")
        3 2 = (GOResult.ok "text", 2, List.replicate 1 2) :=
  (get_output_retry_contract
      (fun j => if j = 0 then Except.error "boom" else Except.ok "text") 3 2
      (by omega)).2.1 1 "text" (by omega)
    (fun j hj => ⟨"boom", by
      have hj0 : j = 0 := by omega
      rw [hj0]
      rfl⟩)
    rfl

/-- C4: on a node whose children cache is unmaterialized, find_children
builds exactly one child per persona in the order silly, funny, smart, each
from the current state via one oracle call (the log grows by exactly the
three prompts, in order); the three-element list is cached on the node; and
any subsequent call returns that same cached list with no further oracle
call. -/
theorem find_children_contract (oracle : Oracle) (n : LLMNode)
    (log : List String) (h : notTruthy n.children = true) :
    (n.find_children oracle log).2.1 =
      [(mkChild sillyTag oracle n.state (some n) log).1,
       (mkChild funnyTag oracle n.state (some n) log).1,
       (mkChild smartTag oracle n.state (some n) log).1] ∧
    ((n.find_children oracle log).1).children =
      some (n.find_children oracle log).2.1 ∧
    (n.find_children oracle log).2.2 =
      log ++ [n.state ++ sillyTag, n.state ++ funnyTag, n.state ++ smartTag] ∧
    (∀ log2 : List String,
      ((n.find_children oracle log).1).find_children oracle log2 =
        ((n.find_children oracle log).1, (n.find_children oracle log).2.1,
          log2)) := by
  refine ⟨?_, ?_, ?_, ?_⟩
  · simp [LLMNode.find_children, h, mkChild]
  · simp [LLMNode.find_children, h, LLMNode.children_withChildren]
  · simp [LLMNode.find_children, h, mkChild]
  · intro log2
    have hfst : (n.find_children oracle log).1 =
        n.withChildren (some (n.find_children oracle log).2.1) := by
      simp [LLMNode.find_children, h]
    have hcs : (n.find_children oracle log).2.1 =
        [(mkChild sillyTag oracle n.state (some n) log).1,
         (mkChild funnyTag oracle n.state (some n) log).1,
         (mkChild smartTag oracle n.state (some n) log).1] := by
      simp [LLMNode.find_children, h, mkChild]
    have hne : (n.find_children oracle log).2.1 ≠ [] := by
      rw [hcs]; simp
    have hc : ((n.find_children oracle log).1).children =
        some (n.find_children oracle log).2.1 := by
      rw [hfst, LLMNode.children_withChildren]
    have := find_children_cached (n.find_children oracle log).1
      (n.find_children oracle log).2.1 hne hc oracle log2
    rw [this]

/-- C4 witness: instantiation at a question-node root with an unmaterialized
cache and a constant oracle. -/
theorem find_children_contract_witness :
    ((mkQuestionNode "Q" []).1.find_children (fun _ => "step") []).2.2 =
      [] ++ ["Q" ++ sillyTag, "Q" ++ funnyTag, "Q" ++ smartTag] :=
  (find_children_contract (fun _ => "step") (mkQuestionNode "Q" []).1 []
    rfl).2.2.1

/-- C5: when any oracle call during expansion fails, the whole expansion
fails atomically: the node comes back unchanged, its children cache exactly
as before (so no partial child set is ever cached), and a later call on the
same node with a working oracle performs the full three-child expansion. -/
theorem find_children_exc_atomic (oracle : OracleE) (n : LLMNode) :
    (∀ e, (n.find_children_exc oracle).1 = Except.error e →
      ((n.find_children_exc oracle).2 = n ∧
        ((n.find_children_exc oracle).2).children = n.children)) ∧
    (∀ oracle2 : OracleE, (∀ p, ∃ s, oracle2 p = Except.ok s) →
      ∃ cs, (n.find_children_exc oracle2).1 = Except.ok cs) := by
  constructor
  · intro e
    rw [LLMNode.find_children_exc]
    by_cases hnt : notTruthy n.children = true
    · simp only [hnt, if_true]
      cases h1 : mkChildE sillyTag oracle n.state (some n) with
      | error e1 => intro _; exact ⟨rfl, rfl⟩
      | ok c1 =>
        cases h2 : mkChildE funnyTag oracle n.state (some n) with
        | error e2 => intro _; exact ⟨rfl, rfl⟩
        | ok c2 =>
          cases h3 : mkChildE smartTag oracle n.state (some n) with
          | error e3 => intro _; exact ⟨rfl, rfl⟩
          | ok c3 => intro hcontra; simp at hcontra
    · rw [if_neg hnt]
      intro _
      exact ⟨rfl, rfl⟩
  · intro oracle2 htotal
    rw [LLMNode.find_children_exc]
    by_cases hnt : notTruthy n.children = true
    · obtain ⟨s1, hs1⟩ := htotal (n.state ++ sillyTag)
      obtain ⟨s2, hs2⟩ := htotal (n.state ++ funnyTag)
      obtain ⟨s3, hs3⟩ := htotal (n.state ++ smartTag)
      simp only [hnt, if_true, mkChildE, hs1, hs2, hs3]
      exact ⟨_, rfl⟩
    · rw [if_neg hnt]
      exact ⟨_, rfl⟩

/-- C5 witness: instantiation at a fresh root with an always-failing oracle
for atomicity and an always-succeeding oracle for the retry. -/
theorem find_children_exc_atomic_witness :
    ((mkQuestionNode "Q" []).1.find_children_exc
      (fun _ => Except.error "down")).2 = (mkQuestionNode "Q" []).1 ∧
    ∃ cs, ((mkQuestionNode "Q" []).1.find_children_exc
      (fun _ => Except.ok "step")).1 = Except.ok cs :=
  ⟨((find_children_exc_atomic (fun _ => Except.error "down")
      (mkQuestionNode "Q" []).1).1 "down" rfl).1,
   (find_children_exc_atomic (fun _ => Except.error "down")
      (mkQuestionNode "Q" []).1).2 (fun _ => Except.ok "step")
      (fun _ => ⟨"step", rfl⟩)⟩

/-- C6: find_random_child builds a single fresh child of the persona picked
by the equiprobable index, from the current state, with one oracle call;
the three equiprobable indices range over exactly the silly, funny and
smart personas; and the cached children collection is neither read (the
result is unchanged, field by field, under any replacement of the cache,
except for the back reference recording that replacement) nor mutated (the
child itself carries an unmaterialized cache and the parent back reference
still holds the original cache). -/
theorem find_random_child_contract (oracle : Oracle) (n : LLMNode)
    (i : Fin 3) (log : List String) :
    (∀ cs : Option (List LLMNode),
      (((n.withChildren cs).find_random_child i oracle log).1).previous_state =
        ((n.find_random_child i oracle log).1).previous_state ∧
      (((n.withChildren cs).find_random_child i oracle log).1).prompt =
        ((n.find_random_child i oracle log).1).prompt ∧
      (((n.withChildren cs).find_random_child i oracle log).1).output =
        ((n.find_random_child i oracle log).1).output ∧
      (((n.withChildren cs).find_random_child i oracle log).1).state =
        ((n.find_random_child i oracle log).1).state ∧
      (((n.withChildren cs).find_random_child i oracle log).1).children =
        ((n.find_random_child i oracle log).1).children ∧
      ((n.withChildren cs).find_random_child i oracle log).2 =
        (n.find_random_child i oracle log).2) ∧
    ((n.find_random_child i oracle log).1).previous_state = n.state ∧
    ((n.find_random_child i oracle log).1).prompt = personaTag i ∧
    ((n.find_random_child i oracle log).1).output =
      oracle (n.state ++ personaTag i) ∧
    ((n.find_random_child i oracle log).1).state =
      n.state ++ personaTag i ++ oracle (n.state ++ personaTag i) ∧
    ((n.find_random_child i oracle log).1).children = none ∧
    ((n.find_random_child i oracle log).1).parent = some n ∧
    (n.find_random_child i oracle log).2 = log ++ [n.state ++ personaTag i] ∧
    [personaTag 0, personaTag 1, personaTag 2] =
      [sillyTag, funnyTag, smartTag] := by
  refine ⟨?_, ?_⟩
  · intro cs
    cases n with
    | mk a b c d p q =>
      simp [LLMNode.find_random_child, mkChild, LLMNode.withChildren,
        LLMNode.previous_state, LLMNode.prompt, LLMNode.output,
        LLMNode.state, LLMNode.children]
  · simp [LLMNode.find_random_child, mkChild, LLMNode.previous_state,
      LLMNode.prompt, LLMNode.output, LLMNode.state, LLMNode.children,
      LLMNode.parent]
    exact ⟨rfl, rfl, rfl⟩

/-- C7: every child produced by expansion records the expanding node as its
parent and starts from that node's resulting state; the resulting state of
any persona-built node is its transcript followed by its persona tag
followed by its generated output; and the question root's state and output
are the raw problem statement, with no tag appended and no oracle call
made. -/
theorem expansion_transcript_invariant (oracle : Oracle) (n : LLMNode)
    (log : List String) (h : notTruthy n.children = true) :
    (∀ c ∈ (n.find_children oracle log).2.1,
      c.parent = some n ∧ c.previous_state = n.state) ∧
    (∀ i : Fin 3,
      ((n.find_random_child i oracle log).1).parent = some n ∧
      ((n.find_random_child i oracle log).1).previous_state = n.state) ∧
    (∀ (tag prev : String) (par : Option LLMNode) (l : List String),
      ((mkChild tag oracle prev par l).1).state =
        ((mkChild tag oracle prev par l).1).previous_state ++
          ((mkChild tag oracle prev par l).1).prompt ++
          ((mkChild tag oracle prev par l).1).output) ∧
    (∀ (q : String) (l : List String),
      ((mkQuestionNode q l).1).state = q ∧
      ((mkQuestionNode q l).1).output = q ∧
      ((mkQuestionNode q l).1).previous_state = q ∧
      (mkQuestionNode q l).2 = l) := by
  refine ⟨?_, ?_, ?_, ?_⟩
  · intro c hc
    have : (n.find_children oracle log).2.1 =
        [(mkChild sillyTag oracle n.state (some n) log).1,
         (mkChild funnyTag oracle n.state (some n) log).1,
         (mkChild smartTag oracle n.state (some n) log).1] := by
      simp [LLMNode.find_children, h, mkChild]
    rw [this] at hc
    simp only [List.mem_cons, List.not_mem_nil, or_false] at hc
    rcases hc with rfl | rfl | rfl <;>
      simp [mkChild, LLMNode.parent, LLMNode.previous_state]
  · intro i
    simp [LLMNode.find_random_child, mkChild, LLMNode.parent,
      LLMNode.previous_state]
  · intro tag prev par l
    simp [mkChild, LLMNode.state, LLMNode.previous_state, LLMNode.prompt,
      LLMNode.output]
  · intro q l
    refine ⟨rfl, rfl, rfl, rfl⟩

/-- C1: is_terminal is truthy exactly when the generated output contains,
case-insensitively, the final-answer marker followed by optional whitespace
and an optionally-signed, optionally-decimal numeral; and it is a pure
function of the already-generated output, so two nodes with the same
output, and in particular two calls on the same node, agree, with no
oracle involved. -/
theorem is_terminal_matches_spec (n : LLMNode) :
    (n.is_terminal = true ↔ SpecTerminal n.output) ∧
    (∀ m : LLMNode, n.output = m.output → n.is_terminal = m.is_terminal) := by
  constructor
  · constructor
    · intro h
      rw [LLMNode.is_terminal] at h
      obtain ⟨v, hv⟩ := Option.isSome_iff_exists.mp h
      obtain ⟨pre, suf, hsplit, hm⟩ := searchFA_some_decomp _ v hv
      obtain ⟨marker, ws, num, post, hsuf, hmk, hws, hnum⟩ :=
        matchAt_spec_decomp suf v hm
      refine ⟨pre, marker, ws, num, post, ?_, hmk, hws, hnum⟩
      rw [hsplit, hsuf]
      simp [List.append_assoc]
    · rintro ⟨pre, marker, ws, num, post, hsplit, hmk, hws, hnum⟩
      rw [LLMNode.is_terminal]
      obtain ⟨v, hv⟩ := spec_matchAt marker ws num post hmk hws hnum
      have h2 : n.output.toList = pre ++ (marker ++ (ws ++ (num ++ post))) := by
        rw [hsplit]
        simp [List.append_assoc]
      rw [h2]
      exact searchFA_isSome_of_matchAt pre _ v hv
  · intro m hm
    rw [LLMNode.is_terminal, LLMNode.is_terminal, hm]

/-- C1 witness: a concrete output containing the marker in capitals is
terminal, satisfies the spec-side pattern, and the result agrees across two
nodes sharing that output. -/
theorem is_terminal_matches_spec_witness :
    ((LLMNode.mk "a" "b" "yes FINAL ANSWER: 12 end" "c" none
        none).is_terminal = true ↔
      SpecTerminal "yes FINAL ANSWER: 12 end") ∧
    (LLMNode.mk "a" "b" "yes FINAL ANSWER: 12 end" "c" none
        none).is_terminal =
      (LLMNode.mk "x" "y" "yes FINAL ANSWER: 12 end" "z" none
        none).is_terminal :=
  ⟨(is_terminal_matches_spec
      (LLMNode.mk "a" "b" "yes FINAL ANSWER: 12 end" "c" none none)).1,
   (is_terminal_matches_spec
      (LLMNode.mk "a" "b" "yes FINAL ANSWER: 12 end" "c" none none)).2
      (LLMNode.mk "x" "y" "yes FINAL ANSWER: 12 end" "z" none none) rfl⟩

/-- C2: on every terminal node, reward extracts the numeral captured at the
leftmost final-answer marker of the output and returns 1 exactly when its
value equals the ground truth, else 0; in particular a node whose output
contains the text Final answer: 5 rewards 1 against ground truth 5, and
one whose output contains Final answer: 5.2 rewards 0 against ground
truth 5. -/
theorem reward_value_correct (n : LLMNode) (g : ℚ)
    (h : n.is_terminal = true) :
    (∃ v, searchFA n.output.toList = some v ∧
      n.reward g = Except.ok (if numeralValue v = g then 1 else 0)) ∧
    (LLMNode.mk "q" "LLM: " "So. Final answer: 5" "s" none none).reward 5 =
      Except.ok 1 ∧
    (LLMNode.mk "q" "LLM: " "So. Final answer: 5.2" "s" none none).reward 5 =
      Except.ok 0 := by
  refine ⟨?_, ?_, ?_⟩
  · have hsome := h
    rw [LLMNode.is_terminal] at hsome
    obtain ⟨v, hv⟩ := Option.isSome_iff_exists.mp hsome
    refine ⟨v, hv, ?_⟩
    rw [LLMNode.reward, if_pos h, hv]
    show (if numeralValue v = g then Except.ok 1 else Except.ok 0) =
      Except.ok (if numeralValue v = g then 1 else 0)
    split_ifs <;> rfl
  · have hs : searchFA ("So. Final answer: 5").toList =
        some ⟨false, ['5'], none⟩ := by decide
    have hv : numeralValue ⟨false, ['5'], none⟩ = 5 := by
      have h5 : digitsToNat ['5'] = 5 := by decide
      simp [numeralValue, h5]
    rw [LLMNode.reward]
    simp only [LLMNode.is_terminal, LLMNode.output, hs, Option.isSome,
      if_true, hv]
  · have hs : searchFA ("So. Final answer: 5.2").toList =
        some ⟨false, ['5'], some ['2']⟩ := by decide
    have hv : numeralValue ⟨false, ['5'], some ['2']⟩ = 26 / 5 := by
      have h5 : digitsToNat ['5'] = 5 := by decide
      have h2 : digitsToNat ['2'] = 2 := by decide
      simp [numeralValue, h5, h2]
      norm_num
    rw [LLMNode.reward]
    simp only [LLMNode.is_terminal, LLMNode.output, hs, Option.isSome,
      if_true, hv]
    norm_num

/-- C2 witness: instantiation at a terminal node whose output carries the
marker with numeral 3, against ground truth 3. -/
theorem reward_value_correct_witness :
    ∃ v, searchFA ((LLMNode.mk "q" "LLM: " "ok final answer: 3" "s" none
        none).output).toList = some v ∧
      (LLMNode.mk "q" "LLM: " "ok final answer: 3" "s" none none).reward 3 =
        Except.ok (if numeralValue v = 3 then 1 else 0) :=
  (reward_value_correct
    (LLMNode.mk "q" "LLM: " "ok final answer: 3" "s" none none) 3
    (by decide)).1

/-- C3: reward on a node whose output does not match the final-answer
pattern fails with the precondition error of the assertion, and on every
terminal node it succeeds with a value. -/
theorem reward_precondition_contract (n : LLMNode) (g : ℚ) :
    (n.is_terminal = false →
      n.reward g = Except.error RewardError.precondition) ∧
    (n.is_terminal = true → ∃ r, n.reward g = Except.ok r) := by
  constructor
  · intro h
    rw [LLMNode.reward, if_neg]
    rw [h]
    simp
  · intro h
    have hsome := h
    rw [LLMNode.is_terminal] at hsome
    obtain ⟨v, hv⟩ := Option.isSome_iff_exists.mp hsome
    rw [LLMNode.reward, if_pos h, hv]
    refine ⟨if numeralValue v = g then 1 else 0, ?_⟩
    show (if numeralValue v = g then Except.ok 1 else Except.ok 0) =
      Except.ok (if numeralValue v = g then 1 else 0)
    split_ifs <;> rfl

/-- C3 witness: a non-terminal node rejects reward with the precondition
error, and a terminal node returns a value. -/
theorem reward_precondition_contract_witness :
    (LLMNode.mk "" "" "keep going" "" none none).reward 2 =
      Except.error RewardError.precondition ∧
    ∃ r, (LLMNode.mk "" "" "final answer: 8" "" none none).reward 2 =
      Except.ok r :=
  ⟨(reward_precondition_contract
      (LLMNode.mk "" "" "keep going" "" none none) 2).1 (by decide),
   (reward_precondition_contract
      (LLMNode.mk "" "" "final answer: 8" "" none none) 2).2 (by decide)⟩

/-- C10: on every terminal node the extraction inside reward cannot fail:
the same pattern that made the node terminal yields a captured group that
is a wellformed optionally-signed, optionally-decimal numeral, so reward
never reports the parse failure and always returns 0 or 1. -/
theorem terminal_reward_total (n : LLMNode) (g : ℚ)
    (h : n.is_terminal = true) :
    (∃ v, searchFA n.output.toList = some v ∧ WfNumeral v) ∧
    (n.reward g = Except.ok 0 ∨ n.reward g = Except.ok 1) ∧
    n.reward g ≠ Except.error RewardError.parseFailure := by
  have hsome := h
  rw [LLMNode.is_terminal] at hsome
  obtain ⟨v, hv⟩ := Option.isSome_iff_exists.mp hsome
  have hrw : n.reward g =
      if numeralValue v = g then Except.ok 1 else Except.ok 0 := by
    rw [LLMNode.reward, if_pos h, hv]
  refine ⟨⟨v, hv, searchFA_wf _ v hv⟩, ?_, ?_⟩
  · rw [hrw]
    split_ifs
    · exact Or.inr rfl
    · exact Or.inl rfl
  · rw [hrw]
    split_ifs <;> simp

/-- C10 witness: instantiation at a terminal node with a negative decimal
final answer. -/
theorem terminal_reward_total_witness :
    (∃ v, searchFA ((LLMNode.mk "" "" "FINAL ANSWER: -4.25" "" none
        none).output).toList = some v ∧ WfNumeral v) ∧
    ((LLMNode.mk "" "" "FINAL ANSWER: -4.25" "" none none).reward 1 =
        Except.ok 0 ∨
      (LLMNode.mk "" "" "FINAL ANSWER: -4.25" "" none none).reward 1 =
        Except.ok 1) :=
  ⟨(terminal_reward_total
      (LLMNode.mk "" "" "FINAL ANSWER: -4.25" "" none none) 1 (by decide)).1,
   (terminal_reward_total
      (LLMNode.mk "" "" "FINAL ANSWER: -4.25" "" none none) 1
      (by decide)).2.1⟩

/-- C7 witness: instantiation at a fresh root with a constant oracle. -/
theorem expansion_transcript_invariant_witness :
    ((mkQuestionNode "Q" []).1.find_random_child 0 (fun _ => "step") []).1.parent
      = some (mkQuestionNode "Q" []).1 ∧
    ((mkQuestionNode "4+4" []).1).state = "4+4" :=
  ⟨((expansion_transcript_invariant (fun _ => "step")
      (mkQuestionNode "Q" []).1 [] rfl).2.1 0).1,
   ((expansion_transcript_invariant (fun _ => "step")
      (mkQuestionNode "4+4" []).1 [] rfl).2.2.2 "4+4" []).1⟩
